import Mathlib

/-!
Verification of the toyser front-end pipeline: the shared text cursor, the
markup parser (dom.rs), the stylesheet parser (css.rs) and the cascade
resolver (style.rs), shallowly embedded in Lean.

Strings are modelled as `List Char`; cursor positions are byte offsets into
the UTF-8 encoding, exactly as in the Rust source (`pos: usize` indexing a
`String`).  Rust panics (failed `assert!`, `unwrap`, out-of-bounds or
non-boundary string slicing) are modelled as `Except` errors; the error
kinds follow the spec's taxonomy, plus `charBoundaryPanic` for a slice at a
non-character-boundary byte offset and `outOfFuel` for the fuel that makes
the parser loops structurally recursive (a successful run never depends on
it once the fuel supplied by the entry points is large enough).
-/

instance {ε α : Type} [DecidableEq ε] [DecidableEq α] : DecidableEq (Except ε α) := fun x y =>
  match x, y with
  | .ok a, .ok b =>
    if h : a = b then .isTrue (by rw [h]) else .isFalse (by simp [h])
  | .error a, .error b =>
    if h : a = b then .isTrue (by rw [h]) else .isFalse (by simp [h])
  | .ok _, .error _ => .isFalse (by simp)
  | .error _, .ok _ => .isFalse (by simp)

/-- Strings of the modelled program: lists of unicode scalar values. -/
abbrev Str := List Char

/-- Convert a Lean string literal to the model's string type. -/
def str (s : String) : Str := s.data

/-- Error kinds.  The first six follow the spec's §7 taxonomy; the last two
are artifacts of the embedding (Rust slice panic at a non-boundary offset,
and loop fuel). -/
inductive PErr where
  | unexpectedEof
  | unexpectedCharacter
  | mismatchedTag
  | unrecognizedUnit
  | invalidHex
  | invalidNumber
  | charBoundaryPanic
  | outOfFuel
  deriving DecidableEq, Repr

/-- Parser state shared by both parsers: a byte offset into an immutable
input string (`Parser { pos: usize, input: String }`). -/
structure PState where
  pos : Nat
  input : Str
  deriving DecidableEq, Repr

/-- Byte length of the UTF-8 encoding of a string (`String::len`). -/
def byteLen (l : Str) : Nat := (l.map Char.utf8Size).sum

/-- The suffix of `l` starting at byte offset `pos` (`&input[pos..]`):
`none` when `pos` is out of bounds or not a character boundary, in which
case the Rust slice panics. -/
def sliceFrom : Str → Nat → Option Str
  | [], n => if n = 0 then some [] else none
  | c :: t, n =>
    if n = 0 then some (c :: t)
    else if c.utf8Size ≤ n then sliceFrom t (n - c.utf8Size) else none

/-- Embeds `fn eof(&self) -> bool { self.pos >= self.input.len() }` -/
def eofAt (st : PState) : Bool := byteLen st.input ≤ st.pos

/-- The markup parser's peek:
`self.input[self.pos..].chars().next().unwrap()` — panics at end of
input. -/
def domNextChar (st : PState) : Except PErr Char :=
  match sliceFrom st.input st.pos with
  | none => .error .charBoundaryPanic
  | some [] => .error .unexpectedEof
  | some (c :: _) => .ok c

/-- The stylesheet parser's peek:
`self.input[self.pos..].chars().next()` — an `Option`, `None` at end of
input. -/
def cssNextChar (st : PState) : Except PErr (Option Char) :=
  match sliceFrom st.input st.pos with
  | none => .error .charBoundaryPanic
  | some [] => .ok none
  | some (c :: _) => .ok (some c)

/-- The byte step taken by `consume_char`: the second entry of
`char_indices` is the byte index of the *next* character (the width of
`c`), and `unwrap_or((1, ' '))` yields 1 when `c` is the last character. -/
def advanceWidth (c : Char) (rest : Str) : Nat :=
  match rest with
  | [] => 1
  | _ :: _ => c.utf8Size

/-- Embeds `consume_char` of both parsers: read the character at the cursor and
advance by `advanceWidth`. -/
def consumeChar (st : PState) : Except PErr (Char × PState) :=
  match sliceFrom st.input st.pos with
  | none => .error .charBoundaryPanic
  | some [] => .error .unexpectedEof
  | some (c :: rest) => .ok (c, ⟨st.pos + advanceWidth c rest, st.input⟩)

/-- The loop of `consume_while`, structurally recursive on fuel.  Each
iteration checks `eof`, peeks, tests the predicate and consumes the
character (the consume always succeeds when the peek did, so the advance is
inlined). -/
def consumeWhileGo (p : Char → Bool) : Nat → PState → Except PErr (Str × PState)
  | 0, _ => .error .outOfFuel
  | fuel + 1, st =>
    if eofAt st then .ok ([], st)
    else
      match sliceFrom st.input st.pos with
      | none => .error .charBoundaryPanic
      | some [] => .error .unexpectedEof
      | some (c :: rest) =>
        if p c then
          match consumeWhileGo p fuel ⟨st.pos + advanceWidth c rest, st.input⟩ with
          | .error e => .error e
          | .ok (cs, st') => .ok (c :: cs, st')
        else .ok ([], st)

/-- Embeds `consume_while(predicate)`: greedily collect characters satisfying the
predicate.  The loop advances at least one byte per iteration, so
`byteLen + 1` fuel always suffices. -/
def consumeWhile (p : Char → Bool) (st : PState) : Except PErr (Str × PState) :=
  consumeWhileGo p (byteLen st.input + 1) st

/-- Embeds `consume_whitespace`. -/
def consumeWhitespace (st : PState) : Except PErr (Str × PState) :=
  consumeWhile Char.isWhitespace st

/-- Embeds `self.input[self.pos..].starts_with(s)` (panics at a non-boundary
offset, like the slice in the source). -/
def startsWithAt (st : PState) (s : Str) : Except PErr Bool :=
  match sliceFrom st.input st.pos with
  | none => .error .charBoundaryPanic
  | some l => .ok (s.isPrefixOf l)

/-- Association-list maps, standing in for the source's `HashMap`: `insert`
replaces any existing binding of the key (last write wins). -/
def insertA {α : Type} (k : Str) (v : α) : List (Str × α) → List (Str × α)
  | [] => [(k, v)]
  | p :: t => if p.1 = k then insertA k v t else p :: insertA k v t

/-- Embeds `HashMap::get`. -/
def lookupA {α : Type} : List (Str × α) → Str → Option α
  | [], _ => none
  | p :: t, k => if p.1 = k then some p.2 else lookupA t k

namespace Dom

/-- Embeds `type AttrMap = HashMap<String, String>` -/
abbrev AttrMap := List (Str × Str)

/-- Embeds `ElementData { tag_name, attributes }` -/
structure ElementData where
  tag_name : Str
  attributes : AttrMap
  deriving DecidableEq, Repr

/-- Embeds `NodeType`: text or element. -/
inductive NodeType where
  | text (data : Str)
  | element (data : ElementData)
  deriving DecidableEq, Repr

/-- Embeds `Node { children, node_type }` -/
inductive Node where
  | mk (children : List Node) (node_type : NodeType)

mutual

def nodeDecEq : (a b : Node) → Decidable (a = b)
  | .mk c1 t1, .mk c2 t2 =>
    match nodeListDecEq c1 c2 with
    | .isFalse h => .isFalse (by intro he; cases he; exact h rfl)
    | .isTrue hc =>
      match decEq t1 t2 with
      | .isTrue ht => .isTrue (by rw [hc, ht])
      | .isFalse h => .isFalse (by intro he; cases he; exact h rfl)

def nodeListDecEq : (a b : List Node) → Decidable (a = b)
  | [], [] => .isTrue rfl
  | [], _ :: _ => .isFalse (by simp)
  | _ :: _, [] => .isFalse (by simp)
  | x :: xs, y :: ys =>
    match nodeDecEq x y, nodeListDecEq xs ys with
    | .isTrue h1, .isTrue h2 => .isTrue (by rw [h1, h2])
    | .isFalse h1, _ => .isFalse (by intro he; cases he; exact h1 rfl)
    | _, .isFalse h2 => .isFalse (by intro he; cases he; exact h2 rfl)

end

instance : DecidableEq Node := nodeDecEq

def Node.children : Node → List Node
  | .mk c _ => c

def Node.node_type : Node → NodeType
  | .mk _ t => t

/-- Embeds `fn text(data: String) -> Node` -/
def text (data : Str) : Node := .mk [] (.text data)

/-- Embeds `fn elem(name, attrs, children) -> Node` -/
def elem (name : Str) (attrs : AttrMap) (children : List Node) : Node :=
  .mk children (.element ⟨name, attrs⟩)

/-- The character class of `parse_tag_name`. -/
def isTagNameChar (c : Char) : Bool :=
  ('a' ≤ c && c ≤ 'z') || ('A' ≤ c && c ≤ 'Z') || ('0' ≤ c && c ≤ '9')

/-- Embeds `parse_tag_name`. -/
def parseTagName (st : PState) : Except PErr (Str × PState) :=
  consumeWhile isTagNameChar st

/-- Embeds `parse_text`: a run of characters up to the next `<`. -/
def parseText (st : PState) : Except PErr (Node × PState) := do
  let (s, st) ← consumeWhile (fun c => decide (c ≠ '<')) st
  .ok (text s, st)

/-- Embeds `parse_attr_value`: a quoted value; the closing quote must match the
opening one (`assert!` failures become `unexpectedCharacter`). -/
def parseAttrValue (st : PState) : Except PErr (Str × PState) := do
  let (openQuote, st) ← consumeChar st
  if openQuote = '"' ∨ openQuote = '\'' then do
    let (value, st) ← consumeWhile (fun c => decide (c ≠ openQuote)) st
    let (q, st) ← consumeChar st
    if q = openQuote then .ok (value, st) else .error .unexpectedCharacter
  else .error .unexpectedCharacter

/-- Embeds `parse_attr`: `name '=' value`. -/
def parseAttr (st : PState) : Except PErr ((Str × Str) × PState) := do
  let (name, st) ← parseTagName st
  let (e, st) ← consumeChar st
  if e = '=' then do
    let (value, st) ← parseAttrValue st
    .ok ((name, value), st)
  else .error .unexpectedCharacter

/-- The `parse_attrs` loop, accumulating into the attribute map (later
occurrences of a name overwrite earlier ones). -/
def parseAttrs : Nat → PState → AttrMap → Except PErr (AttrMap × PState)
  | 0, _, _ => .error .outOfFuel
  | fuel + 1, st, acc => do
    let (_, st) ← consumeWhitespace st
    let c ← domNextChar st
    if c = '>' then .ok (acc, st)
    else do
      let (nv, st) ← parseAttr st
      parseAttrs fuel st (insertA nv.1 nv.2 acc)

mutual

/-- Embeds `parse_node`: dispatch on the peeked character. -/
def parseNode : Nat → PState → Except PErr (Node × PState)
  | 0, _ => .error .outOfFuel
  | fuel + 1, st => do
    let c ← domNextChar st
    if c = '<' then parseElement fuel st else parseText st

/-- Embeds `parse_element`: opening tag, attributes, children, matching closing
tag.  A closing tag name different from the opening one is the fatal
`mismatchedTag`. -/
def parseElement : Nat → PState → Except PErr (Node × PState)
  | 0, _ => .error .outOfFuel
  | fuel + 1, st => do
    let (lt, st) ← consumeChar st
    if lt = '<' then do
      let (tagName, st) ← parseTagName st
      let (attrs, st) ← parseAttrs (byteLen st.input + 1) st []
      let (gt, st) ← consumeChar st
      if gt = '>' then do
        let (children, st) ← parseNodes fuel st
        let (lt2, st) ← consumeChar st
        if lt2 = '<' then do
          let (sl, st) ← consumeChar st
          if sl = '/' then do
            let (closing, st) ← parseTagName st
            if closing = tagName then do
              let (gt2, st) ← consumeChar st
              if gt2 = '>' then .ok (elem tagName attrs children, st)
              else .error .unexpectedCharacter
            else .error .mismatchedTag
          else .error .unexpectedCharacter
        else .error .unexpectedCharacter
      else .error .unexpectedCharacter
    else .error .unexpectedCharacter

/-- Embeds `parse_nodes`: skip whitespace, stop at end of input or at a `</`
lookahead, otherwise parse a node and continue. -/
def parseNodes : Nat → PState → Except PErr (List Node × PState)
  | 0, _ => .error .outOfFuel
  | fuel + 1, st => do
    let (_, st) ← consumeWhitespace st
    if eofAt st then .ok ([], st)
    else do
      let b ← startsWithAt st (str "</")
      if b then .ok ([], st)
      else do
        let (n, st) ← parseNode fuel st
        let (ns, st) ← parseNodes fuel st
        .ok (n :: ns, st)

end

/-- Fuel for the markup entry point: generous, since every loop iteration
and every nesting level consumes at least one byte. -/
def domFuel (s : Str) : Nat := 4 * byteLen s + 16

/-- Embeds `Parser::parse`: parse top-level nodes; return the single node, or wrap
the list in a synthetic `html` element. -/
def parse (source : Str) : Except PErr Node :=
  match parseNodes (domFuel source) ⟨0, source⟩ with
  | .error e => .error e
  | .ok (nodes, _) =>
    match nodes with
    | [n] => .ok n
    | ns => .ok (elem (str "html") [] ns)

end Dom

/-- Insert into a sorted list: `a` goes before the first element `b` with
`le a b`. -/
def insertLe {α : Type} (le : α → α → Bool) (a : α) : List α → List α
  | [] => [a]
  | b :: t => if le a b then a :: b :: t else b :: insertLe le a t

/-- Insertion sort by a boolean relation. -/
def sortLe {α : Type} (le : α → α → Bool) : List α → List α
  | [] => []
  | a :: t => insertLe le a (sortLe le t)

/-- A stable sort, realised as a sort of the index-tagged list under a
relation that breaks ties by original index; with distinct indices the
sorted arrangement is unique, so this is extensionally *the* stable sort
(the behaviour Rust documents for `sort_by`). -/
def stableSortBy {α : Type} (le : Nat × α → Nat × α → Bool) (l : List α) : List α :=
  (sortLe le l.enum).map Prod.snd

namespace Css

/-- Embeds `SimpleSelector { tag_name, id, class }` (the `class` field is named
`classes` here because `class` is a Lean keyword). -/
structure SimpleSelector where
  tag_name : Option Str
  id : Option Str
  classes : List Str
  deriving DecidableEq, Repr

/-- Embeds `enum Selector { Simple(SimpleSelector) }` -/
inductive Selector where
  | simple (s : SimpleSelector)
  deriving DecidableEq, Repr

/-- Embeds `enum Unit { Px, Percent }` (named `CssUnit` to avoid the core `Unit`). -/
inductive CssUnit where
  | px
  | percent
  deriving DecidableEq, Repr

/-- Embeds `Color { r, g, b, a }`, bytes as naturals. -/
structure Color where
  r : Nat
  g : Nat
  b : Nat
  a : Nat
  deriving DecidableEq, Repr

/-- Embeds `enum Value`.  The `f32` of `Length` is kept as its source text: no
claim depends on float arithmetic, only on which strings parse. -/
inductive Value where
  | keyword (s : Str)
  | length (num : Str) (unit : CssUnit)
  | colorValue (c : Color)
  deriving DecidableEq, Repr

/-- Embeds `Declaration { name, value }` -/
structure Declaration where
  name : Str
  value : Value
  deriving DecidableEq, Repr

/-- Embeds `Rule { selectors, declarations }` -/
structure Rule where
  selectors : List Selector
  declarations : List Declaration
  deriving DecidableEq, Repr

/-- Embeds `StyleSheet { rules }` -/
structure StyleSheet where
  rules : List Rule
  deriving DecidableEq, Repr

/-- Embeds `pub type Specificity = (usize, usize, usize)` -/
abbrev Specificity := Nat × Nat × Nat

/-- Embeds `Selector::specificity`: `(id count, class count, tag count)`, each
`iter().count()` of an `Option` being 0 or 1. -/
def Selector.specificity : Selector → Specificity
  | .simple s => (s.id.toList.length, s.classes.length, s.tag_name.toList.length)

/-- Strict lexicographic order on specificity tuples (`Ord` on a Rust
3-tuple of `usize`). -/
def specLtB : Specificity → Specificity → Bool
  | (a1, a2, a3), (b1, b2, b3) =>
    decide (a1 < b1) ||
      (decide (a1 = b1) && (decide (a2 < b2) || (decide (a2 = b2) && decide (a3 < b3))))

/-- Embeds `fn valid_identifier_char`. -/
def validIdentifierChar (c : Char) : Bool :=
  ('a' ≤ c && c ≤ 'z') || ('A' ≤ c && c ≤ 'Z') || ('0' ≤ c && c ≤ '9') ||
    c == '-' || c == '_' || c == '%'

/-- Embeds `parse_identifier`. -/
def parseIdentifier (st : PState) : Except PErr (Str × PState) :=
  consumeWhile validIdentifierChar st

/-- The `parse_simple_selector` loop: `while !eof { match next_char { ... } }`,
accumulating into the selector. -/
def parseSimpleSelector : Nat → PState → SimpleSelector → Except PErr (SimpleSelector × PState)
  | 0, _, _ => .error .outOfFuel
  | fuel + 1, st, sel =>
    if eofAt st then .ok (sel, st)
    else do
      let c? ← cssNextChar st
      match c? with
      | some '#' => do
        let (_, st) ← consumeChar st
        let (i, st) ← parseIdentifier st
        parseSimpleSelector fuel st { sel with id := some i }
      | some '.' => do
        let (_, st) ← consumeChar st
        let (ident, st) ← parseIdentifier st
        parseSimpleSelector fuel st { sel with classes := sel.classes ++ [ident] }
      | some '*' => do
        let (_, st) ← consumeChar st
        parseSimpleSelector fuel st sel
      | some c =>
        if validIdentifierChar c then do
          let (t, st) ← parseIdentifier st
          parseSimpleSelector fuel st { sel with tag_name := some t }
        else .ok (sel, st)
      | none => .ok (sel, st)

/-- The descending-by-specificity relation of `parse_selectors`' `sort_by`
(`b.specificity().cmp(&a.specificity())`), with the index tie-break of a
stable sort. -/
def selDescLe (x y : Nat × Selector) : Bool :=
  specLtB y.2.specificity x.2.specificity ||
    (decide (x.2.specificity = y.2.specificity) && decide (x.1 ≤ y.1))

/-- The collection loop of `parse_selectors`: selectors separated by `,`,
terminated by `{` (which is consumed); anything else is a fatal panic. -/
def parseSelectorsLoop : Nat → PState → Except PErr (List Selector × PState)
  | 0, _ => .error .outOfFuel
  | fuel + 1, st => do
    let (s, st) ← parseSimpleSelector (byteLen st.input + 1) st ⟨none, none, []⟩
    let (_, st) ← consumeWhitespace st
    let c? ← cssNextChar st
    match c? with
    | some ',' => do
      let (_, st) ← consumeChar st
      let (_, st) ← consumeWhitespace st
      let (rest, st) ← parseSelectorsLoop fuel st
      .ok (Selector.simple s :: rest, st)
    | some '{' => do
      let (_, st) ← consumeChar st
      .ok ([Selector.simple s], st)
    | _ => .error .unexpectedCharacter

/-- Embeds `parse_selectors`: collect, then sort descending by specificity. -/
def parseSelectors (fuel : Nat) (st : PState) : Except PErr (List Selector × PState) := do
  let (sels, st) ← parseSelectorsLoop fuel st
  .ok (stableSortBy selDescLe sels, st)

/-- Embeds `parse_float`: consume the digits-and-dots run; `s.parse::<f32>()`
succeeds on such a run exactly when it has at least one digit and at most
one dot.  The float is kept as its source text. -/
def parseFloat (st : PState) : Except PErr (Str × PState) := do
  let (s, st) ← consumeWhile (fun c => ('0' ≤ c && c ≤ '9') || c == '.') st
  if (s.any fun c => '0' ≤ c && c ≤ '9') && decide (s.count '.' ≤ 1) then .ok (s, st)
  else .error .invalidNumber

/-- Embeds `parse_unit`: the identifier, ASCII-lowercased, must be `px` or `%`. -/
def parseUnit (st : PState) : Except PErr (CssUnit × PState) := do
  let (i, st) ← parseIdentifier st
  let low := i.map Char.toLower
  if low = str "px" then .ok (.px, st)
  else if low = str "%" then .ok (.percent, st)
  else .error .unrecognizedUnit

/-- Embeds `parse_length`. -/
def parseLength (st : PState) : Except PErr (Value × PState) := do
  let (f, st) ← parseFloat st
  let (u, st) ← parseUnit st
  .ok (.length f u, st)

/-- The first `n` bytes of a string (`&input[pos..pos+2]` relative to the
suffix): `none` if the string is shorter or the cut is not a character
boundary. -/
def takeBytes : Nat → Str → Option Str
  | n, [] => if n = 0 then some [] else none
  | n, c :: t =>
    if n = 0 then some []
    else if c.utf8Size ≤ n then (takeBytes (n - c.utf8Size) t).map (c :: ·) else none

def isHexDigit (c : Char) : Bool :=
  ('0' ≤ c && c ≤ '9') || ('a' ≤ c && c ≤ 'f') || ('A' ≤ c && c ≤ 'F')

def hexVal (c : Char) : Nat :=
  if '0' ≤ c && c ≤ '9' then c.toNat - '0'.toNat
  else if 'a' ≤ c && c ≤ 'f' then c.toNat - 'a'.toNat + 10
  else c.toNat - 'A'.toNat + 10

/-- Embeds `u8::from_str_radix(s, 16)`: an optional leading `+`, then one or more
hex digits, and the value must fit in a byte. -/
def fromStrRadix16 (s : Str) : Option Nat :=
  let digits := match s with
    | '+' :: t => t
    | t => t
  if digits.isEmpty then none
  else if digits.all isHexDigit then
    let v := digits.foldl (fun acc c => 16 * acc + hexVal c) 0
    if v < 256 then some v else none
  else none

/-- Embeds `parse_hex_pair`: slice two bytes (panicking like Rust when fewer
remain, mapped to `unexpectedEof`, or when the cut splits a character) and
parse them as hex. -/
def parseHexPair (st : PState) : Except PErr (Nat × PState) :=
  match sliceFrom st.input st.pos with
  | none => .error .charBoundaryPanic
  | some l =>
    match takeBytes 2 l with
    | none => .error (if byteLen l < 2 then .unexpectedEof else .charBoundaryPanic)
    | some s =>
      match fromStrRadix16 s with
      | none => .error .invalidHex
      | some v => .ok (v, ⟨st.pos + 2, st.input⟩)

/-- Embeds `parse_color`: `#` then three hex byte-pairs, alpha fixed at 255. -/
def parseColor (st : PState) : Except PErr (Value × PState) := do
  let (h, st) ← consumeChar st
  if h = '#' then do
    let (r, st) ← parseHexPair st
    let (g, st) ← parseHexPair st
    let (b, st) ← parseHexPair st
    .ok (.colorValue ⟨r, g, b, 255⟩, st)
  else .error .unexpectedCharacter

/-- Embeds `parse_value`: digit → length, `#` → color, anything else (including
end of input) → bare keyword. -/
def parseValue (st : PState) : Except PErr (Value × PState) := do
  let c? ← cssNextChar st
  match c? with
  | some c =>
    if '0' ≤ c && c ≤ '9' then parseLength st
    else if c = '#' then parseColor st
    else do
      let (i, st) ← parseIdentifier st
      .ok (.keyword i, st)
  | none => do
    let (i, st) ← parseIdentifier st
    .ok (.keyword i, st)

/-- Embeds `parse_declaration`: `identifier ':' value ';'`. -/
def parseDeclaration (st : PState) : Except PErr (Declaration × PState) := do
  let (name, st) ← parseIdentifier st
  let (_, st) ← consumeWhitespace st
  let (c, st) ← consumeChar st
  if c = ':' then do
    let (_, st) ← consumeWhitespace st
    let (v, st) ← parseValue st
    let (semi, st) ← consumeChar st
    if semi = ';' then .ok (⟨name, v⟩, st) else .error .unexpectedCharacter
  else .error .unexpectedCharacter

/-- Embeds `parse_declarations`: the independently callable declaration-list entry
point.  The loop exits only on a `}` (which it consumes). -/
def parseDeclarations : Nat → PState → Except PErr (List Declaration × PState)
  | 0, _ => .error .outOfFuel
  | fuel + 1, st => do
    let (_, st) ← consumeWhitespace st
    let c? ← cssNextChar st
    if c? = some '}' then do
      let (_, st) ← consumeChar st
      .ok ([], st)
    else do
      let (d, st) ← parseDeclaration st
      let (ds, st) ← parseDeclarations fuel st
      .ok (d :: ds, st)

/-- Embeds `parse_rule`. -/
def parseRule (fuel : Nat) (st : PState) : Except PErr (Rule × PState) := do
  let (sels, st) ← parseSelectors fuel st
  let (decls, st) ← parseDeclarations fuel st
  .ok (⟨sels, decls⟩, st)

/-- The `parse_rules` loop. -/
def parseRules : Nat → PState → Except PErr (List Rule × PState)
  | 0, _ => .error .outOfFuel
  | fuel + 1, st => do
    let (_, st) ← consumeWhitespace st
    if eofAt st then .ok ([], st)
    else do
      let (r, st) ← parseRule fuel st
      let (rs, st) ← parseRules fuel st
      .ok (r :: rs, st)

/-- Fuel for the stylesheet entry points. -/
def cssFuel (s : Str) : Nat := 4 * byteLen s + 16

/-- Embeds `Parser::parse` of the stylesheet parser. -/
def parse (source : Str) : Except PErr StyleSheet :=
  match parseRules (cssFuel source) ⟨0, source⟩ with
  | .error e => .error e
  | .ok (rs, _) => .ok ⟨rs⟩

end Css

namespace Style

open Css

/-- Embeds `type PropertyMap = HashMap<String, Value>` -/
abbrev PropertyMap := List (Str × Css.Value)

/-- Embeds `StyledNode { children, node, specified_values }` (the borrowed `&Node`
is embedded by value). -/
inductive StyledNode where
  | mk (children : List StyledNode) (node : Dom.Node) (specified_values : PropertyMap)

def StyledNode.children : StyledNode → List StyledNode
  | .mk c _ _ => c

def StyledNode.node : StyledNode → Dom.Node
  | .mk _ n _ => n

def StyledNode.specified_values : StyledNode → PropertyMap
  | .mk _ _ v => v

/-- Split a string at whitespace, discarding empty fragments. -/
def splitWsAux : Str → Str → List Str
  | [], acc => if acc.isEmpty then [] else [acc.reverse]
  | c :: t, acc =>
    if c.isWhitespace then
      if acc.isEmpty then splitWsAux t [] else acc.reverse :: splitWsAux t []
    else splitWsAux t (c :: acc)

def splitWs (s : Str) : List Str := splitWsAux s []

/-- Modelled from the spec: `ElementData::id`, called by the matcher
(`style.rs`) but defined nowhere under `src/` — the element's `id`
attribute, an optional string. -/
def elemId (e : Dom.ElementData) : Option Str := lookupA e.attributes (str "id")

/-- Modelled from the spec: `ElementData::classes`, called by the matcher
(`style.rs`) but defined nowhere under `src/` — the set-like sequence of
class names, the whitespace-separated fragments of the `class`
attribute. -/
def elemClasses (e : Dom.ElementData) : List Str :=
  splitWs ((lookupA e.attributes (str "class")).getD [])

/-- Embeds `matches_simple_selector`: every present selector field must agree with
the element (absent fields are wildcards). -/
def matchesSimpleSelector (e : Dom.ElementData) (selector : SimpleSelector) : Bool :=
  if selector.tag_name.toList.any fun name => decide (e.tag_name ≠ name) then false
  else if selector.id.toList.any fun i => decide (elemId e ≠ some i) then false
  else if selector.classes.any fun c => decide (c ∉ elemClasses e) then false
  else true

/-- Embeds `fn matches`. -/
def matchesSel (e : Dom.ElementData) (s : Selector) : Bool :=
  match s with
  | .simple simple => matchesSimpleSelector e simple

/-- Embeds `type MatchedRule = (Specificity, &Rule)` -/
abbrev MatchedRule := Specificity × Rule

/-- Embeds `match_rule`: the *first* matching selector of the (descending-sorted)
selector list determines the rule's specificity; an `Option`, so a rule
enters the match set at most once. -/
def matchRule (e : Dom.ElementData) (rule : Rule) : Option MatchedRule :=
  (rule.selectors.find? fun s => matchesSel e s).map fun s => (s.specificity, rule)

/-- Embeds `matching_rules`. -/
def matchingRules (e : Dom.ElementData) (sheet : StyleSheet) : List MatchedRule :=
  sheet.rules.filterMap (matchRule e)

/-- The ascending-by-specificity relation of `specified_values`' `sort_by`
(`a.cmp(&b)`), with the index tie-break of a stable sort. -/
def mrAscLe (x y : Nat × MatchedRule) : Bool :=
  specLtB x.2.1 y.2.1 || (decide (x.2.1 = y.2.1) && decide (x.1 ≤ y.1))

/-- The matched rules, stably sorted ascending by specificity. -/
def sortedMatchingRules (e : Dom.ElementData) (sheet : StyleSheet) : List MatchedRule :=
  stableSortBy mrAscLe (matchingRules e sheet)

/-- Insert every declaration of a list into the map, in order. -/
def applyDecls (m : PropertyMap) (ds : List Declaration) : PropertyMap :=
  ds.foldl (fun m d => insertA d.name d.value m) m

/-- The merge loop of `specified_values` (lines 63–72): iterate the sorted
matches ascending and insert each declaration by name. -/
def cascadeValues (e : Dom.ElementData) (sheet : StyleSheet) : PropertyMap :=
  (sortedMatchingRules e sheet).foldl (fun m sr => applyDecls m sr.2.declarations) []

/-- Embeds `specified_values`: the cascade merge, then the `style` attribute (if
any) parsed by the declaration-list entry point and overlaid last. -/
def specifiedValues (e : Dom.ElementData) (sheet : StyleSheet) : Except PErr PropertyMap :=
  let values := cascadeValues e sheet
  match lookupA e.attributes (str "style") with
  | some inlineStyles => do
    let (decls, _) ← Css.parseDeclarations (cssFuel inlineStyles) ⟨0, inlineStyles⟩
    .ok (applyDecls values decls)
  | none => .ok values

mutual

/-- Embeds `style_tree`: recursively style the children, and give elements their
specified values (text nodes an empty map). -/
def styleTree : Dom.Node → StyleSheet → Except PErr StyledNode
  | .mk children nt, sheet => do
    let cs ← styleTreeList children sheet
    match nt with
    | .text _ => .ok (.mk cs (.mk children nt) [])
    | .element data => do
      let sv ← specifiedValues data sheet
      .ok (.mk cs (.mk children nt) sv)

def styleTreeList : List Dom.Node → StyleSheet → Except PErr (List StyledNode)
  | [], _ => .ok []
  | n :: t, sheet => do
    let s ← styleTree n sheet
    let rest ← styleTreeList t sheet
    .ok (s :: rest)

end

/-- The value of the last declaration named `n` in a list, if any — the
value that last-write-wins insertion leaves in the map. -/
def lastDeclVal (n : Str) : List Css.Declaration → Option Css.Value
  | [] => none
  | d :: ds =>
    match lastDeclVal n ds with
    | some v => some v
    | none => if d.name = n then some d.value else none

/-- The value the merge loop leaves for `n` after processing a list of
matched rules in order: the last rule that sets `n`, its own last
declaration of `n`. -/
def lastRuleVal (n : Str) : List MatchedRule → Option Css.Value
  | [] => none
  | r :: rs =>
    match lastRuleVal n rs with
    | some v => some v
    | none => lastDeclVal n r.2.declarations

/-- Structural mirroring of a styled tree over its source tree: same child
count at every node, the i-th styled child derived from the i-th source
child, at every depth. -/
inductive Mirrors : StyledNode → Dom.Node → Prop where
  | mk {sn : StyledNode} {n : Dom.Node}
      (hnode : sn.node = n)
      (hlen : sn.children.length = n.children.length)
      (hchild : ∀ i (h1 : i < sn.children.length) (h2 : i < n.children.length),
        Mirrors (sn.children.get ⟨i, h1⟩) (n.children.get ⟨i, h2⟩)) :
      Mirrors sn n

end Style

namespace Dom

mutual

/-- No text node anywhere in the tree has content beginning with a
whitespace character. -/
def textOk : Node → Bool
  | .mk children nt =>
    (match nt with
     | .text [] => true
     | .text (c :: _) => !c.isWhitespace
     | .element _ => true) && textOkList children

def textOkList : List Node → Bool
  | [] => true
  | n :: t => textOk n && textOkList t

end

end Dom

/-- The spec's cascade example: `div {color: red;}`. -/
def wDivRule : Css.Rule :=
  ⟨[.simple ⟨some (str "div"), none, []⟩], [⟨str "color", .keyword (str "red")⟩]⟩

/-- The spec's cascade example: `.cls {color: blue;}`. -/
def wClsRule : Css.Rule :=
  ⟨[.simple ⟨none, none, [str "cls"]⟩], [⟨str "color", .keyword (str "blue")⟩]⟩

/-- The spec's cascade example element: `<div class="cls">`. -/
def wDivElem : Dom.ElementData := ⟨str "div", [(str "class", str "cls")]⟩

/-! ## Theorems -/

theorem byteLen_nil : byteLen [] = 0 := rfl

theorem byteLen_cons (c : Char) (t : Str) : byteLen (c :: t) = c.utf8Size + byteLen t := by
  simp [byteLen]

theorem sliceFrom_byteLen (l : Str) : sliceFrom l (byteLen l) = some [] := by
  induction l with
  | nil => simp [sliceFrom, byteLen]
  | cons c t ih =>
    have hpos : 0 < c.utf8Size := Char.utf8Size_pos c
    have h0 : ¬ (c.utf8Size + byteLen t = 0) := by omega
    rw [byteLen_cons]
    simp only [sliceFrom, h0, if_false, Nat.le_add_right, if_true, Nat.add_sub_cancel_left, ih]

/-- C8 counterexample: the markup parser's `next_char`, invoked at
end-of-input, errors (it unwraps a `None`) instead of returning an empty
optional. -/
theorem dom_next_char_eof_errors : domNextChar ⟨0, []⟩ = .error .unexpectedEof := by decide

/-- C8 (amended): at end-of-input the *stylesheet* parser's `next_char`
returns none rather than erroring, but the *markup* parser's `next_char`
errors there (`UnexpectedEof`). -/
theorem next_char_at_eof (input : Str) :
    cssNextChar ⟨byteLen input, input⟩ = .ok none ∧
    domNextChar ⟨byteLen input, input⟩ = .error .unexpectedEof := by
  constructor <;> simp [cssNextChar, domNextChar, sliceFrom_byteLen]

/-- C4: `consume_char` advances by only one byte — not the character's full
encoded width — when the consumed character is the last of the input (the
`unwrap_or((1, ' '))` default).  Consuming the two-byte `é` as the final
character leaves the cursor mid-character, where the very next peek panics
on a non-boundary slice; when the same character is *not* last, the cursor
advances by its full width. -/
theorem consume_char_splits_final_multibyte :
    consumeChar ⟨0, str "é"⟩ = .ok ('é', ⟨1, str "é"⟩) ∧
    ('é').utf8Size = 2 ∧
    cssNextChar ⟨1, str "é"⟩ = .error .charBoundaryPanic ∧
    consumeChar ⟨0, str "éa"⟩ = .ok ('é', ⟨2, str "éa"⟩) := by decide

/-- C7: each malformed input is rejected fatally with the specified error
kind and no partial result: `<a>text</b>` with `MismatchedTag`,
`.a{width: 10xx;}` with `UnrecognizedUnit`, `.a{color:#12;}` with
`InvalidHex`. -/
theorem malformed_inputs_rejected :
    Dom.parse (str "<a>text</b>") = .error .mismatchedTag ∧
    Css.parse (str ".a\x7bwidth: 10xx;\x7d") = .error .unrecognizedUnit ∧
    Css.parse (str ".a\x7bcolor:#12;\x7d") = .error .invalidHex := by decide

/-- C3: when parsing the whole document succeeds, `parse` returns the single
top-level node directly when exactly one was parsed, and otherwise a
synthetic `html` element (empty attributes) whose children are exactly the
parsed top-level nodes in source order. -/
theorem parse_root_wrapping (input : Str) (ns : List Dom.Node) (st' : PState)
    (h : Dom.parseNodes (Dom.domFuel input) ⟨0, input⟩ = .ok (ns, st')) :
    (∀ n, ns = [n] → Dom.parse input = .ok n) ∧
    (ns.length ≠ 1 → Dom.parse input = .ok (Dom.elem (str "html") [] ns)) := by
  constructor
  · intro n hn
    subst hn
    simp [Dom.parse, h]
  · intro hlen
    cases ns with
    | nil => simp [Dom.parse, h]
    | cons a t =>
      cases t with
      | nil => simp at hlen
      | cons b t2 => simp [Dom.parse, h]

/-- C3 witness: two top-level elements are wrapped in a synthetic `html`
element, in source order. -/
theorem parse_root_wrapping_witness :
    Dom.parse (str "<a></a> <b></b>") =
      .ok (Dom.elem (str "html") []
        [Dom.elem (str "a") [] [], Dom.elem (str "b") [] []]) :=
  (parse_root_wrapping (str "<a></a> <b></b>")
    [Dom.elem (str "a") [] [], Dom.elem (str "b") [] []]
    ⟨15, str "<a></a> <b></b>"⟩ (by decide)).2 (by decide)

theorem lookupA_insertA {α : Type} (k k' : Str) (v : α) (m : List (Str × α)) :
    lookupA (insertA k v m) k' = if k' = k then some v else lookupA m k' := by
  induction m with
  | nil =>
    by_cases h : k' = k
    · simp [insertA, lookupA, h]
    · have h' : ¬ k = k' := fun he => h he.symm
      simp [insertA, lookupA, h, h']
  | cons p t ih =>
    by_cases hp : p.1 = k
    · have hstep : insertA k v (p :: t) = insertA k v t := by simp [insertA, hp]
      rw [hstep, ih]
      by_cases h : k' = k
      · simp [h]
      · have hpk' : ¬ p.1 = k' := by
          rw [hp]
          exact fun he => h he.symm
        simp [h, lookupA, hpk']
    · have hstep : insertA k v (p :: t) = p :: insertA k v t := by simp [insertA, hp]
      rw [hstep]
      by_cases hpk' : p.1 = k'
      · have h : ¬ k' = k := by
          rw [← hpk']
          exact hp
        simp [lookupA, hpk', h]
      · simp [lookupA, hpk', ih]

theorem lookupA_applyDecls (ds : List Css.Declaration) :
    ∀ (m : Style.PropertyMap) (n : Str),
      lookupA (Style.applyDecls m ds) n =
        match Style.lastDeclVal n ds with
        | some v => some v
        | none => lookupA m n := by
  induction ds with
  | nil =>
    intro m n
    simp [Style.applyDecls, Style.lastDeclVal]
  | cons d ds ih =>
    intro m n
    have hstep : Style.applyDecls m (d :: ds) =
        Style.applyDecls (insertA d.name d.value m) ds := rfl
    rw [hstep, ih]
    cases hld : Style.lastDeclVal n ds with
    | some v => simp [Style.lastDeclVal, hld]
    | none =>
      simp only [Style.lastDeclVal, hld, lookupA_insertA]
      by_cases hn : d.name = n
      · simp [hn]
      · have hn' : ¬ n = d.name := fun he => hn he.symm
        simp [hn, hn']

/-- C1: the declaration-list entry point only exits its loop on a `}`, so a
`style` attribute that is a valid brace-less declaration list hits
end-of-input and fails fatally — no overlay happens; appending the `}` the
loop wants makes the very same inline declarations parse and overlay last,
overriding a higher-specificity stylesheet rule. -/
theorem inline_style_braceless_fails :
    Style.specifiedValues ⟨str "div", [(str "style", str "color:red;")]⟩
        ⟨[⟨[.simple ⟨some (str "div"), none, []⟩],
           [⟨str "color", .keyword (str "blue")⟩]⟩]⟩ = .error .unexpectedEof ∧
    Style.specifiedValues ⟨str "div", [(str "style", str "color:red;\x7d")]⟩
        ⟨[⟨[.simple ⟨some (str "div"), none, []⟩],
           [⟨str "color", .keyword (str "blue")⟩]⟩]⟩ =
      .ok [(str "color", Css.Value.keyword (str "red"))] := by decide

theorem find?_eq_of_first {α : Type} (p : α → Bool) :
    ∀ (l : List α) (i : Nat) (h : i < l.length),
      (∀ j (hj : j < l.length), j < i → p (l.get ⟨j, hj⟩) = false) →
      p (l.get ⟨i, h⟩) = true →
      l.find? p = some (l.get ⟨i, h⟩) := by
  intro l
  induction l with
  | nil =>
    intro i h
    exact absurd h (by simp)
  | cons a t ih =>
    intro i h hfirst hmatch
    cases i with
    | zero =>
      simp at hmatch
      simp [List.find?_cons, hmatch]
    | succ i' =>
      have ha : p a = false := by
        have := hfirst 0 (by simp) (Nat.succ_pos i')
        simpa using this
      have ht := ih i' (by simpa using h)
        (fun j hj hji => by
          have := hfirst (j + 1) (by simpa using hj) (by omega)
          simpa using this)
        (by simpa using hmatch)
      simp [List.find?_cons, ha, ht]

theorem matchRule_snd (e : Dom.ElementData) (r : Css.Rule) (mr : Style.MatchedRule)
    (h : Style.matchRule e r = some mr) : mr.2 = r := by
  unfold Style.matchRule at h
  cases hf : r.selectors.find? (fun s => Style.matchesSel e s) with
  | none => rw [hf] at h; simp at h
  | some s =>
    rw [hf] at h
    simp at h
    rw [← h]

theorem countP_matchingRules (e : Dom.ElementData) (rule : Css.Rule) :
    ∀ (rs : List Css.Rule),
      ((rs.filterMap (Style.matchRule e)).countP fun mr => decide (mr.2 = rule)) ≤
        rs.countP fun r => decide (r = rule) := by
  intro rs
  induction rs with
  | nil => simp
  | cons r t ih =>
    cases hm : Style.matchRule e r with
    | none =>
      simp only [List.filterMap_cons, hm, List.countP_cons]
      omega
    | some mr =>
      have hsnd : mr.2 = r := matchRule_snd e r mr hm
      simp only [List.filterMap_cons, hm, List.countP_cons, hsnd]
      by_cases hr : r = rule <;> simp only [hr] <;> omega

/-- C6: a rule enters an element's match set at most once (never more often
than it occurs in the stylesheet), and when it matches, the specificity
recorded is that of the first matching selector in the rule's selector
list — selectors after the first match are ignored even if they also
match. -/
theorem match_rule_first_selector (e : Dom.ElementData) (rule : Css.Rule) (i : Nat)
    (h : i < rule.selectors.length)
    (hfirst : ∀ j (hj : j < rule.selectors.length), j < i →
      Style.matchesSel e (rule.selectors.get ⟨j, hj⟩) = false)
    (hmatch : Style.matchesSel e (rule.selectors.get ⟨i, h⟩) = true) :
    Style.matchRule e rule = some ((rule.selectors.get ⟨i, h⟩).specificity, rule) ∧
    ∀ (sheet : Css.StyleSheet),
      ((Style.matchingRules e sheet).countP fun mr => decide (mr.2 = rule)) ≤
        sheet.rules.countP fun r => decide (r = rule) := by
  constructor
  · unfold Style.matchRule
    rw [find?_eq_of_first _ rule.selectors i h hfirst hmatch]
    rfl
  · intro sheet
    exact countP_matchingRules e rule sheet.rules

theorem insertLe_perm {α : Type} (le : α → α → Bool) (a : α) :
    ∀ l : List α, List.Perm (insertLe le a l) (a :: l)
  | [] => List.Perm.refl _
  | b :: t => by
    unfold insertLe
    by_cases h : le a b
    · rw [if_pos h]
    · rw [if_neg h]
      exact ((insertLe_perm le a t).cons b).trans (List.Perm.swap a b t)

theorem sortLe_perm {α : Type} (le : α → α → Bool) :
    ∀ l : List α, List.Perm (sortLe le l) l
  | [] => List.Perm.refl _
  | a :: t => (insertLe_perm le a (sortLe le t)).trans ((sortLe_perm le t).cons a)

theorem mem_insertLe {α : Type} (le : α → α → Bool) {x a : α} {l : List α}
    (h : x ∈ insertLe le a l) : x = a ∨ x ∈ l := by
  have := (insertLe_perm le a l).mem_iff.mp h
  simpa using this

theorem pairwise_insertLe {α : Type} (le : α → α → Bool)
    (htot : ∀ x y, le x y = true ∨ le y x = true)
    (htrans : ∀ x y z, le x y = true → le y z = true → le x z = true)
    (a : α) (l : List α) (hp : l.Pairwise fun x y => le x y = true) :
    (insertLe le a l).Pairwise (fun x y => le x y = true) := by
  induction l with
  | nil => simp [insertLe]
  | cons b t ih =>
    rcases List.pairwise_cons.mp hp with ⟨hb, ht⟩
    unfold insertLe
    by_cases h : le a b
    · rw [if_pos h]
      refine List.pairwise_cons.mpr ⟨?_, hp⟩
      intro y hy
      rcases List.mem_cons.mp hy with rfl | hy
      · exact h
      · exact htrans a b y h (hb y hy)
    · rw [if_neg h]
      have hba : le b a = true := (htot a b).resolve_left h
      refine List.pairwise_cons.mpr ⟨?_, ih ht⟩
      intro y hy
      rcases mem_insertLe le hy with rfl | hy
      · exact hba
      · exact hb y hy

theorem pairwise_sortLe {α : Type} (le : α → α → Bool)
    (htot : ∀ x y, le x y = true ∨ le y x = true)
    (htrans : ∀ x y z, le x y = true → le y z = true → le x z = true)
    (l : List α) :
    (sortLe le l).Pairwise (fun x y => le x y = true) := by
  induction l with
  | nil => simp [sortLe]
  | cons a t ih => exact pairwise_insertLe le htot htrans a _ ih

theorem specLtB_iff (x y : Css.Specificity) :
    Css.specLtB x y = true ↔
      x.1 < y.1 ∨ (x.1 = y.1 ∧ (x.2.1 < y.2.1 ∨ (x.2.1 = y.2.1 ∧ x.2.2 < y.2.2))) := by
  obtain ⟨a, b, c⟩ := x
  obtain ⟨d, e, f⟩ := y
  simp [Css.specLtB]

theorem specLtB_irrefl (s : Css.Specificity) : Css.specLtB s s = false := by
  rw [Bool.eq_false_iff]
  intro h
  rw [specLtB_iff] at h
  omega

theorem specLtB_asymm {x y : Css.Specificity} (h : Css.specLtB x y = true) :
    Css.specLtB y x = false := by
  rw [Bool.eq_false_iff]
  intro hc
  rw [specLtB_iff] at h hc
  omega

theorem specLtB_trans {x y z : Css.Specificity} (h1 : Css.specLtB x y = true)
    (h2 : Css.specLtB y z = true) : Css.specLtB x z = true := by
  rw [specLtB_iff] at h1 h2 ⊢
  omega

theorem specLtB_connex (x y : Css.Specificity) :
    Css.specLtB x y = true ∨ Css.specLtB y x = true ∨ x = y := by
  obtain ⟨a, b, c⟩ := x
  obtain ⟨d, e, f⟩ := y
  simp only [specLtB_iff, Prod.mk.injEq]
  omega

theorem selDescLe_total (x y : Nat × Css.Selector) :
    Css.selDescLe x y = true ∨ Css.selDescLe y x = true := by
  unfold Css.selDescLe
  simp only [Bool.or_eq_true, Bool.and_eq_true, decide_eq_true_eq]
  rcases specLtB_connex x.2.specificity y.2.specificity with h | h | h
  · right; left; exact h
  · left; left; exact h
  · rcases Nat.le_total x.1 y.1 with hi | hi
    · left; right; exact ⟨h, hi⟩
    · right; right; exact ⟨h.symm, hi⟩

theorem selDescLe_trans (x y z : Nat × Css.Selector)
    (h1 : Css.selDescLe x y = true) (h2 : Css.selDescLe y z = true) :
    Css.selDescLe x z = true := by
  unfold Css.selDescLe at h1 h2 ⊢
  simp only [Bool.or_eq_true, Bool.and_eq_true, decide_eq_true_eq] at h1 h2 ⊢
  rcases h1 with h1 | ⟨h1e, h1i⟩
  · rcases h2 with h2 | ⟨h2e, h2i⟩
    · exact Or.inl (specLtB_trans h2 h1)
    · rw [h2e] at h1
      exact Or.inl h1
  · rcases h2 with h2 | ⟨h2e, h2i⟩
    · rw [← h1e] at h2
      exact Or.inl h2
    · exact Or.inr ⟨h1e.trans h2e, Nat.le_trans h1i h2i⟩

theorem stableSortBy_selDesc_pairwise (l : List Css.Selector) :
    (stableSortBy Css.selDescLe l).Pairwise
      (fun a b => Css.specLtB a.specificity b.specificity = false) := by
  unfold stableSortBy
  have hp := pairwise_sortLe Css.selDescLe selDescLe_total
    (fun x y z => selDescLe_trans x y z) l.enum
  refine List.Pairwise.map Prod.snd ?_ hp
  intro a b hab
  unfold Css.selDescLe at hab
  simp only [Bool.or_eq_true, Bool.and_eq_true, decide_eq_true_eq] at hab
  rcases hab with h | ⟨he, _⟩
  · exact specLtB_asymm h
  · rw [he]
    exact specLtB_irrefl _

theorem parseSelectors_sorted (f : Nat) (st : PState) (sels : List Css.Selector)
    (st' : PState) (h : Css.parseSelectors f st = .ok (sels, st')) :
    sels.Pairwise (fun a b => Css.specLtB a.specificity b.specificity = false) := by
  unfold Css.parseSelectors at h
  cases hl : Css.parseSelectorsLoop f st with
  | error e =>
    rw [hl] at h
    simp [Bind.bind, Except.bind] at h
  | ok p =>
    obtain ⟨s0, st0⟩ := p
    rw [hl] at h
    simp only [Bind.bind, Except.bind, Except.ok.injEq, Prod.mk.injEq] at h
    rw [← h.1]
    exact stableSortBy_selDesc_pairwise s0

theorem parseRule_sorted (f : Nat) (st : PState) (r : Css.Rule) (st' : PState)
    (h : Css.parseRule f st = .ok (r, st')) :
    r.selectors.Pairwise (fun a b => Css.specLtB a.specificity b.specificity = false) := by
  unfold Css.parseRule at h
  simp only [Bind.bind, Except.bind] at h
  split at h
  · simp at h
  · rename_i v heq
    split at h
    · simp at h
    · rename_i w heq2
      simp only [Except.ok.injEq, Prod.mk.injEq] at h
      rw [← h.1]
      exact parseSelectors_sorted f st v.1 v.2 heq

theorem parseRules_sorted (f : Nat) :
    ∀ (st : PState) (rs : List Css.Rule) (st' : PState),
      Css.parseRules f st = .ok (rs, st') →
      ∀ r ∈ rs, r.selectors.Pairwise
        (fun a b => Css.specLtB a.specificity b.specificity = false) := by
  induction f with
  | zero =>
    intro st rs st' h
    simp [Css.parseRules] at h
  | succ f ih =>
    intro st rs st' h
    unfold Css.parseRules at h
    simp only [Bind.bind, Except.bind] at h
    split at h
    · simp at h
    · rename_i v heq
      split at h
      · simp only [Except.ok.injEq, Prod.mk.injEq] at h
        rw [← h.1]
        intro r hr
        simp at hr
      · split at h
        · simp at h
        · rename_i w heq2
          split at h
          · simp at h
          · rename_i u heq3
            simp only [Except.ok.injEq, Prod.mk.injEq] at h
            rw [← h.1]
            intro r hrmem
            rcases List.mem_cons.mp hrmem with rfl | hmem
            · exact parseRule_sorted f v.2 w.1 w.2 heq2
            · exact ih w.2 u.1 u.2 heq3 r hmem

/-- C5: in every stylesheet produced by `parse`, every rule's selector
list is sorted descending by specificity; a simple selector's specificity
is the tuple (id present, class-fragment count, tag present), so `#id`,
`.a.b.c.d.e` and `div` have specificities (1,0,0), (0,5,0), (0,0,1) and
the descending sort orders them `#id`, `.a.b.c.d.e`, `div`. -/
theorem selector_lists_sorted (src : Str) (sheet : Css.StyleSheet)
    (h : Css.parse src = .ok sheet) :
    (∀ rule ∈ sheet.rules, rule.selectors.Pairwise
      (fun a b => Css.specLtB a.specificity b.specificity = false)) ∧
    (Css.Selector.simple ⟨none, some (str "id"), []⟩).specificity = (1, 0, 0) ∧
    (Css.Selector.simple
      ⟨none, none, [str "a", str "b", str "c", str "d", str "e"]⟩).specificity = (0, 5, 0) ∧
    (Css.Selector.simple ⟨some (str "div"), none, []⟩).specificity = (0, 0, 1) ∧
    stableSortBy Css.selDescLe
      [Css.Selector.simple ⟨some (str "div"), none, []⟩,
       Css.Selector.simple ⟨none, none, [str "a", str "b", str "c", str "d", str "e"]⟩,
       Css.Selector.simple ⟨none, some (str "id"), []⟩] =
      [Css.Selector.simple ⟨none, some (str "id"), []⟩,
       Css.Selector.simple ⟨none, none, [str "a", str "b", str "c", str "d", str "e"]⟩,
       Css.Selector.simple ⟨some (str "div"), none, []⟩] := by
  refine ⟨?_, by decide, by decide, by decide, by decide⟩
  unfold Css.parse at h
  cases hp : Css.parseRules (Css.cssFuel src) ⟨0, src⟩ with
  | error e =>
    rw [hp] at h
    simp at h
  | ok p =>
    obtain ⟨rs, stf⟩ := p
    rw [hp] at h
    simp only [Except.ok.injEq] at h
    rw [← h]
    exact parseRules_sorted (Css.cssFuel src) ⟨0, src⟩ rs stf hp

/-- C5 witness: the rule parsed from `div, .a.b.c.d.e, #id {color:red;}`
has its selector list sorted descending by specificity. -/
theorem selector_lists_sorted_witness :
    List.Pairwise (fun a b => Css.specLtB a.specificity b.specificity = false)
      [Css.Selector.simple ⟨none, some (str "id"), []⟩,
       Css.Selector.simple ⟨none, none, [str "a", str "b", str "c", str "d", str "e"]⟩,
       Css.Selector.simple ⟨some (str "div"), none, []⟩] :=
  (selector_lists_sorted (str "div, .a.b.c.d.e, #id \x7bcolor:red;\x7d")
    ⟨[⟨[Css.Selector.simple ⟨none, some (str "id"), []⟩,
        Css.Selector.simple ⟨none, none, [str "a", str "b", str "c", str "d", str "e"]⟩,
        Css.Selector.simple ⟨some (str "div"), none, []⟩],
       [⟨str "color", Css.Value.keyword (str "red")⟩]⟩]⟩ (by decide)).1
    ⟨[Css.Selector.simple ⟨none, some (str "id"), []⟩,
      Css.Selector.simple ⟨none, none, [str "a", str "b", str "c", str "d", str "e"]⟩,
      Css.Selector.simple ⟨some (str "div"), none, []⟩],
     [⟨str "color", Css.Value.keyword (str "red")⟩]⟩ (List.mem_singleton.mpr rfl)

mutual

theorem styleTree_mirrors_aux :
    ∀ (n : Dom.Node) (sheet : Css.StyleSheet) (sn : Style.StyledNode),
      Style.styleTree n sheet = .ok sn → Style.Mirrors sn n
  | .mk children nt, sheet, sn, h => by
    unfold Style.styleTree at h
    simp only [Bind.bind, Except.bind] at h
    split at h
    · simp at h
    · rename_i v heq
      have hlist := styleTreeList_mirrors_aux children sheet v heq
      split at h
      · simp only [Except.ok.injEq] at h
        subst h
        exact Style.Mirrors.mk rfl hlist.1 (fun i h1 h2 => hlist.2 i h1 h2)
      · split at h
        · simp at h
        · rename_i sv hsv
          simp only [Except.ok.injEq] at h
          subst h
          exact Style.Mirrors.mk rfl hlist.1 (fun i h1 h2 => hlist.2 i h1 h2)

theorem styleTreeList_mirrors_aux :
    ∀ (l : List Dom.Node) (sheet : Css.StyleSheet) (sns : List Style.StyledNode),
      Style.styleTreeList l sheet = .ok sns →
      sns.length = l.length ∧
        ∀ i (h1 : i < sns.length) (h2 : i < l.length),
          Style.Mirrors (sns.get ⟨i, h1⟩) (l.get ⟨i, h2⟩)
  | [], _, sns, h => by
    unfold Style.styleTreeList at h
    simp only [Except.ok.injEq] at h
    subst h
    exact ⟨rfl, fun i h1 h2 => absurd h1 (by simp)⟩
  | n :: t, sheet, sns, h => by
    unfold Style.styleTreeList at h
    simp only [Bind.bind, Except.bind] at h
    split at h
    · simp at h
    · rename_i s hs
      split at h
      · simp at h
      · rename_i rest hrest
        simp only [Except.ok.injEq] at h
        subst h
        have hm := styleTree_mirrors_aux n sheet s hs
        have hl := styleTreeList_mirrors_aux t sheet rest hrest
        refine ⟨by simp [hl.1], ?_⟩
        intro i h1 h2
        cases i with
        | zero => exact hm
        | succ j =>
          exact hl.2 j (by simpa using h1) (by simpa using h2)

end

/-- C9: whenever `style_tree` succeeds, the styled tree structurally mirrors
the source tree: at every depth, each StyledNode holds its source Node, has
a child list of the same length, and its i-th styled child is derived from
the i-th source child. -/
theorem style_tree_mirrors (root : Dom.Node) (sheet : Css.StyleSheet)
    (sn : Style.StyledNode) (h : Style.styleTree root sheet = .ok sn) :
    Style.Mirrors sn root :=
  styleTree_mirrors_aux root sheet sn h

/-- C9 witness: the styled tree of a one-element, one-text-child document
mirrors it. -/
theorem style_tree_mirrors_witness :
    Style.Mirrors
      (.mk [.mk [] (Dom.text (str "x")) []]
        (Dom.elem (str "a") [] [Dom.text (str "x")]) [])
      (Dom.elem (str "a") [] [Dom.text (str "x")]) :=
  style_tree_mirrors (Dom.elem (str "a") [] [Dom.text (str "x")]) ⟨[]⟩
    (.mk [.mk [] (Dom.text (str "x")) []]
      (Dom.elem (str "a") [] [Dom.text (str "x")]) []) rfl

theorem mrAscLe_total (x y : Nat × Style.MatchedRule) :
    Style.mrAscLe x y = true ∨ Style.mrAscLe y x = true := by
  unfold Style.mrAscLe
  simp only [Bool.or_eq_true, Bool.and_eq_true, decide_eq_true_eq]
  rcases specLtB_connex x.2.1 y.2.1 with h | h | h
  · left; left; exact h
  · right; left; exact h
  · rcases Nat.le_total x.1 y.1 with hi | hi
    · left; right; exact ⟨h, hi⟩
    · right; right; exact ⟨h.symm, hi⟩

theorem mrAscLe_trans (x y z : Nat × Style.MatchedRule)
    (h1 : Style.mrAscLe x y = true) (h2 : Style.mrAscLe y z = true) :
    Style.mrAscLe x z = true := by
  unfold Style.mrAscLe at h1 h2 ⊢
  simp only [Bool.or_eq_true, Bool.and_eq_true, decide_eq_true_eq] at h1 h2 ⊢
  rcases h1 with h1 | ⟨h1e, h1i⟩
  · rcases h2 with h2 | ⟨h2e, h2i⟩
    · exact Or.inl (specLtB_trans h1 h2)
    · rw [h2e] at h1
      exact Or.inl h1
  · rcases h2 with h2 | ⟨h2e, h2i⟩
    · rw [h1e] at *
      exact Or.inl h2
    · exact Or.inr ⟨h1e.trans h2e, Nat.le_trans h1i h2i⟩

theorem mergeRules_lookup (rs : List Style.MatchedRule) :
    ∀ (m : Style.PropertyMap) (name : Str),
      lookupA (rs.foldl (fun m sr => Style.applyDecls m sr.2.declarations) m) name =
        match Style.lastRuleVal name rs with
        | some v => some v
        | none => lookupA m name := by
  induction rs with
  | nil =>
    intro m name
    simp [Style.lastRuleVal]
  | cons r t ih =>
    intro m name
    rw [List.foldl_cons, ih (Style.applyDecls m r.2.declarations) name]
    cases ht : Style.lastRuleVal name t with
    | some v => simp [Style.lastRuleVal, ht]
    | none =>
      simp only [Style.lastRuleVal, ht, lookupA_applyDecls]

theorem lastRuleVal_append (name : Str) (l1 l2 : List Style.MatchedRule) :
    Style.lastRuleVal name (l1 ++ l2) =
      match Style.lastRuleVal name l2 with
      | some v => some v
      | none => Style.lastRuleVal name l1 := by
  induction l1 with
  | nil =>
    rw [List.nil_append]
    cases h : Style.lastRuleVal name l2
    · simp [h, Style.lastRuleVal]
    · simp [h]
  | cons r t ih =>
    rw [List.cons_append]
    simp only [Style.lastRuleVal]
    rw [ih]
    cases h : Style.lastRuleVal name l2 <;>
      cases h2 : Style.lastRuleVal name t <;> simp [h, h2]

theorem lastRuleVal_eq_none (name : Str) (rs : List Style.MatchedRule)
    (h : ∀ mr ∈ rs, Style.lastDeclVal name mr.2.declarations = none) :
    Style.lastRuleVal name rs = none := by
  induction rs with
  | nil => rfl
  | cons r t ih =>
    simp only [Style.lastRuleVal, ih (fun mr hm => h mr (List.mem_cons_of_mem r hm))]
    exact h r (List.mem_cons_self r t)

/-- C2: after the ascending stable sort of the matched `(specificity, rule)`
pairs, the name-by-name merge leaves, for any property, the value set by
the matched rule maximal in (specificity, stylesheet position): the
highest-specificity matching rule that sets the property wins, and among
equal specificities the rule listed later in the stylesheet wins. -/
theorem cascade_merge (e : Dom.ElementData) (sheet : Css.StyleSheet) (name : Str)
    (i : Nat) (s : Css.Specificity) (r : Css.Rule) (v : Css.Value)
    (hmem : (i, (s, r)) ∈ (Style.matchingRules e sheet).enum)
    (hset : Style.lastDeclVal name r.declarations = some v)
    (hmax : ∀ j t q, (j, (t, q)) ∈ (Style.matchingRules e sheet).enum →
      Style.lastDeclVal name q.declarations ≠ none →
      Css.specLtB t s = true ∨ (t = s ∧ j ≤ i)) :
    lookupA (Style.cascadeValues e sheet) name = some v := by
  have hperm : List.Perm (sortLe Style.mrAscLe (Style.matchingRules e sheet).enum)
      (Style.matchingRules e sheet).enum := sortLe_perm _ _
  have hpair : (sortLe Style.mrAscLe (Style.matchingRules e sheet).enum).Pairwise
      (fun x y => Style.mrAscLe x y = true) :=
    pairwise_sortLe _ mrAscLe_total (fun x y z => mrAscLe_trans x y z) _
  have hnodup : ((sortLe Style.mrAscLe (Style.matchingRules e sheet).enum).map
      Prod.fst).Nodup :=
    ((hperm.map Prod.fst).nodup_iff).mpr (List.nodup_enum_map_fst _)
  have hxS : (i, (s, r)) ∈ sortLe Style.mrAscLe (Style.matchingRules e sheet).enum :=
    hperm.mem_iff.mpr hmem
  obtain ⟨A, B, hsplit⟩ := List.append_of_mem hxS
  rw [hsplit] at hpair hnodup
  have hBnone : ∀ mr ∈ B.map Prod.snd, Style.lastDeclVal name mr.2.declarations = none := by
    intro mr hmr
    obtain ⟨y, hyB, rfl⟩ := List.mem_map.mp hmr
    by_contra hne
    obtain ⟨j, t, q⟩ := y
    have hyL : (j, (t, q)) ∈ (Style.matchingRules e sheet).enum := by
      apply hperm.mem_iff.mp
      rw [hsplit]
      exact List.mem_append.mpr (Or.inr (List.mem_cons_of_mem _ hyB))
    have htq := hmax j t q hyL hne
    have hxy : Style.mrAscLe (i, (s, r)) (j, (t, q)) = true :=
      (List.pairwise_cons.mp (List.pairwise_append.mp hpair).2.1).1 _ hyB
    unfold Style.mrAscLe at hxy
    simp only [Bool.or_eq_true, Bool.and_eq_true, decide_eq_true_eq] at hxy
    have hji : j = i := by
      rcases htq with htq | ⟨hte, hji⟩
      · rcases hxy with hxy | ⟨hxe, _⟩
        · rw [specLtB_asymm htq] at hxy
          cases hxy
        · rw [hxe] at htq
          rw [specLtB_irrefl] at htq
          cases htq
      · rcases hxy with hxy | ⟨_, hij⟩
        · rw [hte] at hxy
          rw [specLtB_irrefl] at hxy
          cases hxy
        · omega
    have hiB : i ∉ B.map Prod.fst := by
      rw [List.map_append, List.map_cons] at hnodup
      exact (List.nodup_cons.mp (List.Nodup.of_append_right hnodup)).1
    exact hiB (by
      rw [← hji]
      exact List.mem_map.mpr ⟨(j, (t, q)), hyB, rfl⟩)
  have hlast : Style.lastRuleVal name
      ((A ++ (i, (s, r)) :: B).map Prod.snd) = some v := by
    rw [List.map_append, List.map_cons, lastRuleVal_append]
    have hB : Style.lastRuleVal name (B.map Prod.snd) = none :=
      lastRuleVal_eq_none name _ hBnone
    simp only [Style.lastRuleVal, hB, hset]
  have hcv : Style.cascadeValues e sheet =
      ((sortLe Style.mrAscLe (Style.matchingRules e sheet).enum).map Prod.snd).foldl
        (fun m sr => Style.applyDecls m sr.2.declarations) [] := rfl
  rw [hcv, mergeRules_lookup, hsplit, hlast]

/-- C2 witness: with rules `div {color: red;}` then `.cls {color: blue;}`
applied to `<div class="cls">`, the merged value of `color` is blue — the
higher-specificity rule wins. -/
theorem cascade_merge_witness :
    lookupA (Style.cascadeValues wDivElem ⟨[wDivRule, wClsRule]⟩) (str "color") =
      some (.keyword (str "blue")) := by
  have hL : (Style.matchingRules wDivElem ⟨[wDivRule, wClsRule]⟩).enum =
      [(0, (((0, 0, 1) : Css.Specificity), wDivRule)),
       (1, (((0, 1, 0) : Css.Specificity), wClsRule))] := by decide
  refine cascade_merge wDivElem ⟨[wDivRule, wClsRule]⟩ (str "color") 1 (0, 1, 0) wClsRule
    (.keyword (str "blue")) ?_ (by decide) ?_
  · rw [hL]
    simp
  · intro j t q hjq hne
    rw [hL] at hjq
    simp only [List.mem_cons, List.not_mem_nil, or_false, Prod.mk.injEq] at hjq
    rcases hjq with ⟨rfl, rfl, rfl⟩ | ⟨rfl, rfl, rfl⟩
    · left
      decide
    · right
      exact ⟨rfl, Nat.le_refl 1⟩

theorem sliceFrom_some_byteLen :
    ∀ (l : Str) (n : Nat) (m : Str), sliceFrom l n = some m → n + byteLen m = byteLen l := by
  intro l
  induction l with
  | nil =>
    intro n m h
    unfold sliceFrom at h
    split at h
    · rename_i h0
      simp only [Option.some.injEq] at h
      rw [← h, h0, byteLen_nil]
    · simp at h
  | cons c t ih =>
    intro n m h
    unfold sliceFrom at h
    split at h
    · rename_i h0
      simp only [Option.some.injEq] at h
      rw [← h, h0]
      omega
    · split at h
      · rename_i h0 hle
        have := ih _ _ h
        rw [byteLen_cons]
        omega
      · simp at h

theorem eofAt_false_of_slice (st : PState) (c : Char) (rest : Str)
    (h : sliceFrom st.input st.pos = some (c :: rest)) : eofAt st = false := by
  have hlen := sliceFrom_some_byteLen _ _ _ h
  have hpos := Char.utf8Size_pos c
  rw [byteLen_cons] at hlen
  unfold eofAt
  rw [decide_eq_false_iff_not]
  omega

theorem consumeWhileGo_exit (p : Char → Bool) :
    ∀ (f : Nat) (st : PState) (cs : Str) (st' : PState),
      consumeWhileGo p f st = .ok (cs, st') →
      eofAt st' = true ∨
        ∃ c rest, sliceFrom st'.input st'.pos = some (c :: rest) ∧ p c = false := by
  intro f
  induction f with
  | zero =>
    intro st cs st' h
    simp [consumeWhileGo] at h
  | succ f ih =>
    intro st cs st' h
    unfold consumeWhileGo at h
    split at h
    · rename_i he
      simp only [Except.ok.injEq, Prod.mk.injEq] at h
      left
      rw [← h.2]
      exact he
    · rename_i he
      split at h
      · simp at h
      · simp at h
      · rename_i c rest hslice
        split at h
        · split at h
          · simp at h
          · rename_i cs2 st2 hrec
            simp only [Except.ok.injEq, Prod.mk.injEq] at h
            have hres := ih _ cs2 st2 hrec
            rw [← h.2]
            exact hres
        · rename_i hpc
          simp only [Except.ok.injEq, Prod.mk.injEq] at h
          right
          rw [← h.2]
          exact ⟨c, rest, hslice, Bool.eq_false_iff.mpr hpc⟩

theorem consumeWhileGo_head (p : Char → Bool) (f : Nat) (st : PState) (cs : Str)
    (st' : PState) (c : Char) (rest : Str)
    (h : consumeWhileGo p f st = .ok (cs, st'))
    (hslice : sliceFrom st.input st.pos = some (c :: rest)) (hpc : p c = true) :
    ∃ cs', cs = c :: cs' := by
  cases f with
  | zero => simp [consumeWhileGo] at h
  | succ f =>
    unfold consumeWhileGo at h
    rw [eofAt_false_of_slice st c rest hslice] at h
    simp only [Bool.false_eq_true, if_false] at h
    rw [hslice] at h
    simp only [hpc, if_true] at h
    split at h
    · simp at h
    · rename_i cs2 st2 hrec
      simp only [Except.ok.injEq, Prod.mk.injEq] at h
      exact ⟨cs2, h.1.symm⟩

theorem parseText_textOk (st : PState) (n : Dom.Node) (st' : PState) (c : Char) (rest : Str)
    (h : Dom.parseText st = .ok (n, st'))
    (hslice : sliceFrom st.input st.pos = some (c :: rest))
    (hlt : c ≠ '<') (hws : c.isWhitespace = false) :
    Dom.textOk n = true := by
  unfold Dom.parseText at h
  simp only [Bind.bind, Except.bind] at h
  split at h
  · simp at h
  · rename_i v hv
    simp only [Except.ok.injEq, Prod.mk.injEq] at h
    unfold consumeWhile at hv
    obtain ⟨cs', hcs⟩ := consumeWhileGo_head _ _ st v.1 v.2 c rest hv hslice (by simp [hlt])
    rw [← h.1, hcs]
    simp [Dom.textOk, Dom.text, Dom.textOkList, hws]

theorem parse_textOk_aux (f : Nat) :
    (∀ (st : PState) (n : Dom.Node) (st' : PState), Dom.parseNode f st = .ok (n, st') →
      (∀ c rest, sliceFrom st.input st.pos = some (c :: rest) → c ≠ '<' →
        c.isWhitespace = false) →
      Dom.textOk n = true) ∧
    (∀ (st : PState) (n : Dom.Node) (st' : PState), Dom.parseElement f st = .ok (n, st') →
      Dom.textOk n = true) ∧
    (∀ (st : PState) (ns : List Dom.Node) (st' : PState),
      Dom.parseNodes f st = .ok (ns, st') → Dom.textOkList ns = true) := by
  induction f with
  | zero =>
    refine ⟨?_, ?_, ?_⟩
    · intro st n st' h
      simp [Dom.parseNode] at h
    · intro st n st' h
      simp [Dom.parseElement] at h
    · intro st ns st' h
      simp [Dom.parseNodes] at h
  | succ f ih =>
    obtain ⟨ihN, ihE, ihNs⟩ := ih
    refine ⟨?_, ?_, ?_⟩
    · intro st n st' h hpre
      unfold Dom.parseNode at h
      simp only [Bind.bind, Except.bind] at h
      split at h
      · simp at h
      · rename_i c heq
        split at h
        · exact ihE st n st' h
        · rename_i hne
          unfold domNextChar at heq
          split at heq
          · simp at heq
          · simp at heq
          · rename_i c0 rest hslice
            simp only [Except.ok.injEq] at heq
            rw [heq] at hslice
            exact parseText_textOk st n st' c rest h hslice hne
              (hpre c rest hslice hne)
    · intro st n st' h
      unfold Dom.parseElement at h
      simp only [Bind.bind, Except.bind] at h
      split at h
      · simp at h
      · rename_i v hv
        split at h
        · split at h
          · simp at h
          · rename_i w hw
            split at h
            · simp at h
            · rename_i a ha
              split at h
              · simp at h
              · rename_i g hg
                split at h
                · split at h
                  · simp at h
                  · rename_i kids hkids
                    split at h
                    · simp at h
                    · rename_i l2 hl2
                      split at h
                      · split at h
                        · simp at h
                        · rename_i sl hsl
                          split at h
                          · split at h
                            · simp at h
                            · rename_i cl hcl
                              split at h
                              · split at h
                                · simp at h
                                · rename_i g2 hg2
                                  split at h
                                  · simp only [Except.ok.injEq, Prod.mk.injEq] at h
                                    have hkidsOk := ihNs g.2 kids.1 kids.2 hkids
                                    rw [← h.1]
                                    simp [Dom.elem, Dom.textOk, hkidsOk]
                                  · simp at h
                              · simp at h
                          · simp at h
                      · simp at h
                · simp at h
        · simp at h
    · intro st ns st' h
      unfold Dom.parseNodes at h
      simp only [Bind.bind, Except.bind] at h
      split at h
      · simp at h
      · rename_i v hv
        split at h
        · simp only [Except.ok.injEq, Prod.mk.injEq] at h
          rw [← h.1]
          rfl
        · rename_i hno
          split at h
          · simp at h
          · rename_i b hb
            split at h
            · simp only [Except.ok.injEq, Prod.mk.injEq] at h
              rw [← h.1]
              rfl
            · split at h
              · simp at h
              · rename_i w hw
                split at h
                · simp at h
                · rename_i u hu
                  simp only [Except.ok.injEq, Prod.mk.injEq] at h
                  have hpre : ∀ c rest, sliceFrom v.2.input v.2.pos = some (c :: rest) →
                      c ≠ '<' → c.isWhitespace = false := by
                    intro c rest hslice hlt
                    unfold consumeWhitespace consumeWhile at hv
                    rcases consumeWhileGo_exit Char.isWhitespace _ st v.1 v.2 hv with
                      heof | ⟨c2, rest2, hslice2, hws2⟩
                    · rw [heof] at hno
                      simp at hno
                    · rw [hslice] at hslice2
                      simp only [Option.some.injEq, List.cons.injEq] at hslice2
                      rw [hslice2.1]
                      exact hws2
                  have hn := ihN v.2 w.1 w.2 hw hpre
                  have hns := ihNs w.2 u.1 u.2 hu
                  rw [← h.1]
                  simp [Dom.textOkList, hn, hns]

/-- C10: whenever markup `parse` succeeds, no Text node anywhere in the
returned tree has content beginning with a whitespace character (leading
whitespace is consumed before a node is parsed); trailing and interior
whitespace of a text run is kept, as the concrete conjunct shows. -/
theorem parse_no_leading_ws (input : Str) (root : Dom.Node)
    (h : Dom.parse input = .ok root) :
    Dom.textOk root = true ∧
    Dom.parse (str "<a> hi  there </a>") =
      .ok (Dom.elem (str "a") [] [Dom.text (str "hi  there ")]) := by
  refine ⟨?_, by decide⟩
  unfold Dom.parse at h
  cases hp : Dom.parseNodes (Dom.domFuel input) ⟨0, input⟩ with
  | error e =>
    rw [hp] at h
    simp at h
  | ok p =>
    obtain ⟨ns, stf⟩ := p
    rw [hp] at h
    have hok := (parse_textOk_aux (Dom.domFuel input)).2.2 _ ns stf hp
    cases ns with
    | nil =>
      simp only [Except.ok.injEq] at h
      rw [← h]
      rfl
    | cons a t =>
      cases t with
      | nil =>
        simp only [Except.ok.injEq] at h
        rw [← h]
        simp only [Dom.textOkList, Bool.and_eq_true] at hok
        exact hok.1
      | cons b t2 =>
        simp only [Except.ok.injEq] at h
        rw [← h]
        simp [Dom.elem, Dom.textOk, hok]

/-- C10 witness: the tree parsed from `<a> hi  there </a>` has no text
content beginning with whitespace. -/
theorem parse_no_leading_ws_witness :
    Dom.textOk (Dom.elem (str "a") [] [Dom.text (str "hi  there ")]) = true :=
  (parse_no_leading_ws (str "<a> hi  there </a>")
    (Dom.elem (str "a") [] [Dom.text (str "hi  there ")]) (by decide)).1

/-- C6 witness: the second selector is the first that matches; the third
also matches but is ignored, and the rule is counted once. -/
theorem match_rule_first_selector_witness :
    Style.matchRule ⟨str "div", [(str "id", str "x")]⟩
        ⟨[.simple ⟨none, some (str "y"), []⟩,
          .simple ⟨some (str "div"), none, []⟩,
          .simple ⟨none, none, []⟩], []⟩ =
      some (((0, 0, 1) : Css.Specificity),
        ⟨[.simple ⟨none, some (str "y"), []⟩,
          .simple ⟨some (str "div"), none, []⟩,
          .simple ⟨none, none, []⟩], []⟩) :=
  (match_rule_first_selector ⟨str "div", [(str "id", str "x")]⟩
    ⟨[.simple ⟨none, some (str "y"), []⟩,
      .simple ⟨some (str "div"), none, []⟩,
      .simple ⟨none, none, []⟩], []⟩ 1 (by decide) (by decide) (by decide)).1
